import Mathlib

/-!
Verification of the pipefunc map/run core against its natural-language
specification.  Python functions from `src/pipefunc` are shallowly embedded
as executable Lean definitions; theorems below settle the frozen claims.
-/

namespace Pipefunc

/-! ## Index partition (`_existing_and_missing_indices`, `src/pipefunc/map/_run.py` lines 262-271)

The Python code zips the per-output `mask_linear()` bitmaps (`zip(*masks)`
truncates to the shortest mask; `zip()` of nothing is empty) and classifies
each linear index as missing when any output's mask reports the cell absent.
-/

/-- Length of the rows produced by Python `zip(*masks)`: the minimum mask
length, and 0 when there are no masks at all. -/
def zip_star_len (ms : List (List Bool)) : Nat :=
  match ms with
  | [] => 0
  | m :: rest => rest.foldl (fun a x => min a x.length) m.length

/-- Rows of Python `zip(*masks)`: row `i` collects entry `i` of every mask. -/
def zip_star (ms : List (List Bool)) : List (List Bool) :=
  (List.range (zip_star_len ms)).map fun i => ms.map fun m => m.getD i false

/-- Enumeration loop body of `_existing_and_missing_indices`: starting at
index `k`, append each row's index to `missing` when any entry is true,
otherwise to `existing`. -/
def emi_loop (k : Nat) (rows : List (List Bool)) : List Nat × List Nat :=
  match rows with
  | [] => ([], [])
  | row :: rest =>
      let (ex, mi) := emi_loop (k + 1) rest
      if row.any id then (ex, k :: mi) else (k :: ex, mi)

/-- Embedding of `_existing_and_missing_indices`: returns
`(existing_indices, missing_indices)`. -/
def existing_and_missing_indices (ms : List (List Bool)) : List Nat × List Nat :=
  emi_loop 0 (zip_star ms)

/-- A linear index is "missing" when any output's mask reports the cell
absent (`true` in `mask_linear()`). -/
def row_missing (ms : List (List Bool)) (i : Nat) : Bool :=
  ms.any fun m => m.getD i false

theorem foldl_min_const (n : Nat) :
    ∀ (rest : List (List Bool)), (∀ m ∈ rest, m.length = n) →
      rest.foldl (fun a x => min a x.length) n = n := by
  intro rest
  induction rest with
  | nil => intro _; rfl
  | cons x xs ih =>
    intro h
    have hx : x.length = n := h x (List.mem_cons_self _ _)
    simp only [List.foldl_cons, hx, min_self]
    exact ih fun m hm => h m (List.mem_cons_of_mem _ hm)

theorem any_map_id {α : Type} (ms : List α) (f : α → Bool) :
    (ms.map f).any id = ms.any f := by
  induction ms with
  | nil => rfl
  | cons m rest ih => simp only [List.map_cons, List.any_cons, ih]; rfl

theorem zip_star_len_eq (ms : List (List Bool)) (n : Nat)
    (hne : ms ≠ []) (hlen : ∀ m ∈ ms, m.length = n) :
    zip_star_len ms = n := by
  match ms, hne with
  | m :: rest, _ =>
    have hm : m.length = n := hlen m (List.mem_cons_self _ _)
    show rest.foldl (fun a x => min a x.length) m.length = n
    rw [hm]
    exact foldl_min_const n rest fun m hm' => hlen m (List.mem_cons_of_mem _ hm')

theorem emi_loop_range' (p : Nat → Bool) (rowFn : Nat → List Bool)
    (hp : ∀ i, (rowFn i).any id = p i) :
    ∀ (n k : Nat),
      emi_loop k ((List.range' k n).map rowFn) =
        ((List.range' k n).filter (fun i => !p i),
         (List.range' k n).filter (fun i => p i)) := by
  intro n
  induction n with
  | zero => intro k; rfl
  | succ n ih =>
    intro k
    rw [List.range'_succ]
    simp only [List.map_cons, List.filter_cons]
    show (let (ex, mi) := emi_loop (k + 1) ((List.range' (k + 1) n).map rowFn)
          if (rowFn k).any id then (ex, k :: mi) else (k :: ex, mi)) = _
    rw [ih (k + 1), hp k]
    by_cases h : p k = true
    · simp [h]
    · simp only [Bool.not_eq_true] at h
      simp [h]

theorem zip_star_eq (ms : List (List Bool)) (n : Nat)
    (hne : ms ≠ []) (hlen : ∀ m ∈ ms, m.length = n) :
    zip_star ms = (List.range n).map fun i => ms.map fun m => m.getD i false := by
  unfold zip_star
  rw [zip_star_len_eq ms n hne hlen]

/-- The partition equals filters of `range n` by `row_missing`. -/
theorem existing_and_missing_indices_eq (ms : List (List Bool)) (n : Nat)
    (hne : ms ≠ []) (hlen : ∀ m ∈ ms, m.length = n) :
    existing_and_missing_indices ms =
      ((List.range n).filter (fun i => !row_missing ms i),
       (List.range n).filter (fun i => row_missing ms i)) := by
  unfold existing_and_missing_indices
  rw [zip_star_eq ms n hne hlen]
  have := emi_loop_range' (row_missing ms) (fun i => ms.map fun m => m.getD i false)
    (fun i => by
      unfold row_missing
      exact any_map_id ms fun m => m.getD i false) n 0
  simpa [List.range_eq_range'] using this

/-- C6: for per-output mask vectors of equal length `n`, the partition
computed by `_existing_and_missing_indices` classifies a linear index as
missing iff some mask reports it absent and as existing iff all report it
present; the two lists are disjoint, strictly ascending, and together cover
exactly the indices `0..n-1`. -/
theorem existing_and_missing_partition (ms : List (List Bool)) (n : Nat)
    (hne : ms ≠ []) (hlen : ∀ m ∈ ms, m.length = n) :
    (∀ i, i ∈ (existing_and_missing_indices ms).2 ↔
        (i < n ∧ ∃ m ∈ ms, m.getD i false = true)) ∧
    (∀ i, i ∈ (existing_and_missing_indices ms).1 ↔
        (i < n ∧ ∀ m ∈ ms, m.getD i false = false)) ∧
    (∀ i, ¬ (i ∈ (existing_and_missing_indices ms).1 ∧
        i ∈ (existing_and_missing_indices ms).2)) ∧
    List.Sorted (· < ·) (existing_and_missing_indices ms).1 ∧
    List.Sorted (· < ·) (existing_and_missing_indices ms).2 ∧
    (∀ i, i < n → i ∈ (existing_and_missing_indices ms).1 ∨
        i ∈ (existing_and_missing_indices ms).2) := by
  have heq := existing_and_missing_indices_eq ms n hne hlen
  have hmi : ∀ i, i ∈ (existing_and_missing_indices ms).2 ↔
      (i < n ∧ ∃ m ∈ ms, m.getD i false = true) := by
    intro i
    rw [heq]
    simp only [List.mem_filter, List.mem_range, row_missing, List.any_eq_true]
  have hex : ∀ i, i ∈ (existing_and_missing_indices ms).1 ↔
      (i < n ∧ ∀ m ∈ ms, m.getD i false = false) := by
    intro i
    rw [heq]
    simp only [List.mem_filter, List.mem_range, row_missing, Bool.not_eq_true',
      List.any_eq_false, Bool.not_eq_true]
  refine ⟨hmi, hex, ?_, ?_, ?_, ?_⟩
  · intro i ⟨h1, h2⟩
    obtain ⟨-, hall⟩ := (hex i).mp h1
    obtain ⟨-, m, hm, htrue⟩ := (hmi i).mp h2
    rw [hall m hm] at htrue
    exact Bool.false_ne_true htrue
  · rw [heq]
    exact (List.pairwise_lt_range n).filter _
  · rw [heq]
    exact (List.pairwise_lt_range n).filter _
  · intro i hi
    by_cases h : ∃ m ∈ ms, m.getD i false = true
    · exact Or.inr ((hmi i).mpr ⟨hi, h⟩)
    · push_neg at h
      exact Or.inl ((hex i).mpr ⟨hi, fun m hm => Bool.eq_false_iff.mpr (h m hm)⟩)

/-- Witness for C6 at the concrete masks `[[false, true], [true, false], [false, false]]`. -/
theorem existing_and_missing_partition_witness :
    (∀ i, i ∈ (existing_and_missing_indices [[false, true], [true, false], [false, false]]).2 ↔
        (i < 2 ∧ ∃ m ∈ [[false, true], [true, false], [false, false]], m.getD i false = true)) ∧
    (∀ i, i ∈ (existing_and_missing_indices [[false, true], [true, false], [false, false]]).1 ↔
        (i < 2 ∧ ∀ m ∈ [[false, true], [true, false], [false, false]], m.getD i false = false)) ∧
    (∀ i, ¬ (i ∈ (existing_and_missing_indices [[false, true], [true, false], [false, false]]).1 ∧
        i ∈ (existing_and_missing_indices [[false, true], [true, false], [false, false]]).2)) ∧
    List.Sorted (· < ·) (existing_and_missing_indices [[false, true], [true, false], [false, false]]).1 ∧
    List.Sorted (· < ·) (existing_and_missing_indices [[false, true], [true, false], [false, false]]).2 ∧
    (∀ i, i < 2 → i ∈ (existing_and_missing_indices [[false, true], [true, false], [false, false]]).1 ∨
        i ∈ (existing_and_missing_indices [[false, true], [true, false], [false, false]]).2) :=
  existing_and_missing_partition [[false, true], [true, false], [false, false]] 2
    (by decide) (by decide)

/-! ## Scheduler model (`src/pipefunc/map/_run.py`)

Python values flowing through the scheduler are modelled by `PyVal`
(numbers, lists, dicts).  A `PipeFuncModel` abstracts a `PipeFunc` as seen
by the sequential scheduler path: `outNames` is `at_least_tuple(output_name)`,
`isTuple` records whether `output_name` is a tuple, `mapped` records
`func.mapspec and func.mapspec.inputs`, `nCells` is the product of the
external shape, and `call i` is the value `func(**selected_kwargs)` returns
at linear index `i` (the kwargs selection is deterministic in the run's
fixed inputs, so it is folded into `call`).  All shape masks here are fully
external, matching the all-true-mask fast path of `_update_result_array`.
The storage state is modelled from the spec: one optional blob per
single-output name, one optional cell per (mapped output name, linear
index), with `mask_linear()` reporting `true` exactly for absent cells. -/

inductive PyVal where
  | atom : Nat → PyVal
  | plist : List PyVal → PyVal
  | pdict : List (String × PyVal) → PyVal

structure PipeFuncModel where
  name : String
  outNames : List String
  isTuple : Bool
  picker : Option (PyVal → String → PyVal)
  mapped : Bool
  nCells : Nat
  call : Nat → PyVal

structure RunState where
  blobs : String → Option PyVal
  cells : String → Nat → Option PyVal

def set_blob (st : RunState) (o : String) (v : PyVal) : RunState :=
  { st with blobs := fun p => if p = o then some v else st.blobs p }

def set_cell (st : RunState) (o : String) (i : Nat) (v : PyVal) : RunState :=
  { st with cells := fun p j => if p = o ∧ j = i then some v else st.cells p j }

/-- Modelled from the spec: `StorageBase.mask_linear()` (the storage classes
are not under `src/`) — `true` = cell is missing and must be (re)computed. -/
def mask_linear (st : RunState) (o : String) (n : Nat) : List Bool :=
  (List.range n).map fun i => (st.cells o i).isNone

/-- Embedding of `_pick_output`: apply `output_picker` per output name when
present, otherwise pass the raw output through. -/
def pick_output (f : PipeFuncModel) (v : PyVal) : List PyVal :=
  f.outNames.map fun o =>
    match f.picker with
    | some p => p v o
    | none => v

/-- Picker application used by `_dump_output`; the source asserts the picker
is present whenever `output_name` is a tuple. -/
def apply_picker (f : PipeFuncModel) (v : PyVal) (o : String) : PyVal :=
  match f.picker with
  | some p => p v o
  | none => v

/-- Embedding of `_dump_output` (`src/pipefunc/map/_run.py` lines 91-106):
for a tuple `output_name`, pick each component from the aggregate and dump
the picked value per name; otherwise dump the raw output. -/
def dump_output (f : PipeFuncModel) (v : PyVal) (st : RunState) :
    List PyVal × RunState :=
  if f.isTuple then
    let new_output := f.outNames.map fun o => apply_picker f v o
    (new_output, (f.outNames.zip new_output).foldl (fun s ov => set_blob s ov.1 ov.2) st)
  else
    ([v], set_blob st (f.outNames.headD "") v)

/-- Embedding of `_maybe_load_single_output`: when every per-name blob
exists, return the loaded output — a plain value for a string
`output_name`, the *list* of loaded components for a tuple `output_name`. -/
def maybe_load_single_output (f : PipeFuncModel) (st : RunState) : Option PyVal :=
  if f.outNames.all fun o => (st.blobs o).isSome then
    some (if f.isTuple then
            PyVal.plist (f.outNames.map fun o => (st.blobs o).getD (PyVal.atom 0))
          else (st.blobs (f.outNames.headD "")).getD (PyVal.atom 0))
  else none

/-- Embedding of `_submit_single` (lines 353-365): load the output if it
exists, otherwise call the function; the second component counts user
function calls. -/
def submit_single (f : PipeFuncModel) (st : RunState) : PyVal × Nat :=
  match maybe_load_single_output f st with
  | some out => (out, 0)
  | none => (f.call 0, 1)

/-- Embedding of `_update_file_array`: dump each picked output to its
storage at the output key of the index. -/
def update_file_array (f : PipeFuncModel) (i : Nat) (outputs : List PyVal)
    (st : RunState) : RunState :=
  (f.outNames.zip outputs).foldl (fun s ov => set_cell s ov.1 i ov.2) st

/-- Embedding of `_run_iteration_and_process`: call the function at the
index, pick the outputs, and write them to storage. -/
def run_iteration_and_process (f : PipeFuncModel) (i : Nat) (st : RunState) :
    List PyVal × RunState :=
  let output := f.call i
  let outputs := pick_output f output
  (outputs, update_file_array f i outputs st)

/-- Process all missing indices in order, threading storage state and
counting user function calls. -/
def process_missing (f : PipeFuncModel) :
    List Nat → RunState → List (List PyVal) × RunState × Nat
  | [], st => ([], st, 0)
  | i :: rest, st =>
      let (outs, st1) := run_iteration_and_process f i st
      let (outsList, st2, c) := process_missing f rest st1
      (outs :: outsList, st2, c + 1)

/-- Embedding of `_init_result_arrays`: one flat object array of size
`prod(shape)` per output name. -/
def init_result_arrays (f : PipeFuncModel) : List (List PyVal) :=
  f.outNames.map fun _ => List.replicate f.nCells (PyVal.atom 0)

/-- Embedding of `_update_result_array` in the all-external-mask case:
`result_array[index] = _output` per output name. -/
def update_result_array (arrs : List (List PyVal)) (i : Nat)
    (outputs : List PyVal) : List (List PyVal) :=
  (arrs.zip outputs).map fun av => av.1.set i av.2

inductive ResultOut where
  | single : PyVal → ResultOut
  | arr : List PyVal → ResultOut

/-- Mapped-function path of `_run_and_process_generation`/`_process_task`
(`_prepare_submit_map_spec` then sequential `map` over the missing indices;
existing indices are read back from storage). -/
def run_mapped (f : PipeFuncModel) (st : RunState) :
    List (String × ResultOut) × RunState × Nat :=
  let masks := f.outNames.map fun o => mask_linear st o f.nCells
  let em := existing_and_missing_indices masks
  let (outsList, st1, ncalls) := process_missing f em.2 st
  let arrs0 := init_result_arrays f
  let arrs1 := (em.2.zip outsList).foldl (fun a iv => update_result_array a iv.1 iv.2) arrs0
  let arrs2 := em.1.foldl (fun a i =>
      update_result_array a i (f.outNames.map fun o => (st1.cells o i).getD (PyVal.atom 0))) arrs1
  ((f.outNames.zip arrs2).map fun oa => (oa.1, ResultOut.arr oa.2), st1, ncalls)

/-- Single-function path of `_process_task`: take the task result of
`_submit_single` and pass it to `_dump_output` (note: the source does so
also when `_submit_single` merely loaded the existing blobs). -/
def process_single (f : PipeFuncModel) (st : RunState) :
    List (String × ResultOut) × RunState × Nat :=
  let (r, ncalls) := submit_single f st
  let (outs, st1) := dump_output f r st
  ((f.outNames.zip outs).map fun ov => (ov.1, ResultOut.single ov.2), st1, ncalls)

def run_func (f : PipeFuncModel) (st : RunState) :
    List (String × ResultOut) × RunState × Nat :=
  if f.mapped then run_mapped f st else process_single f st

/-- Sequential run over the topologically ordered functions, accumulating
the `{output_name → Result}` outputs, the storage state, and the total
number of user function calls. -/
def run_model : List PipeFuncModel → RunState → List (String × ResultOut) × RunState × Nat
  | [], st => ([], st, 0)
  | f :: rest, st =>
      let (res, st1, c1) := run_func f st
      let (resRest, st2, c2) := run_model rest st1
      (res ++ resRest, st2, c1 + c2)

def empty_state : RunState := ⟨fun _ => none, fun _ _ => none⟩

/-! ## C1: rerun with `cleanup=false`

Concrete pipeline: a mapped doubling function `f : x[i] -> y[i]` over three
cells, followed by an unmapped function `g` with tuple output
`("a", "b")` and a dict-based `output_picker`. -/

/-- Dict-based output picker (`lambda x, key: x[key]`, as in the repo's own
tests); applying it to a non-dict value raises `TypeError` in Python, which
the total model represents by the sentinel `atom 999`. -/
def dict_picker : PyVal → String → PyVal
  | PyVal.pdict kvs, o => ((kvs.find? fun kv => kv.1 == o).map Prod.snd).getD (PyVal.atom 0)
  | _, _ => PyVal.atom 999

def f_doubler : PipeFuncModel :=
  { name := "f", outNames := ["y"], isTuple := false, picker := none,
    mapped := true, nCells := 3, call := fun i => PyVal.atom (2 * i) }

def g_pair : PipeFuncModel :=
  { name := "g", outNames := ["a", "b"], isTuple := true, picker := some dict_picker,
    mapped := false, nCells := 1,
    call := fun _ => PyVal.pdict [("a", PyVal.atom 1), ("b", PyVal.atom 2)] }

def demo_pipeline : List PipeFuncModel := [f_doubler, g_pair]

def first_run : List (String × ResultOut) × RunState × Nat :=
  run_model demo_pipeline empty_state

def second_run : List (String × ResultOut) × RunState × Nat :=
  run_model demo_pipeline first_run.2.1

/-- C1: rerunning in the same run folder with `cleanup=false` indeed calls
no user function (every mapped cell is read back, every single-output blob
is loaded), but the second run's Results are NOT equal to the first run's:
for an unmapped tuple output, `_process_task` feeds the already-picked list
loaded by `_maybe_load_single_output` back through `_dump_output`, which
re-applies `output_picker` to it (sentinel 999 = the `TypeError` a
dict-based picker raises in Python). -/
theorem rerun_no_calls_but_results_differ :
    second_run.2.2 = 0 ∧
    first_run.1 = [("y", ResultOut.arr [PyVal.atom 0, PyVal.atom 2, PyVal.atom 4]),
                   ("a", ResultOut.single (PyVal.atom 1)),
                   ("b", ResultOut.single (PyVal.atom 2))] ∧
    second_run.1 = [("y", ResultOut.arr [PyVal.atom 0, PyVal.atom 2, PyVal.atom 4]),
                    ("a", ResultOut.single (PyVal.atom 999)),
                    ("b", ResultOut.single (PyVal.atom 999))] ∧
    second_run.1 ≠ first_run.1 := by
  refine ⟨rfl, rfl, rfl, ?_⟩
  intro h
  have step := congrArg (fun l => l.getD 1 ("", ResultOut.single (PyVal.atom 0))) h
  have hne : ("a", ResultOut.single (PyVal.atom 999)) = ("a", ResultOut.single (PyVal.atom 1)) :=
    step
  simp only [Prod.mk.injEq, ResultOut.single.injEq, PyVal.atom.injEq, true_and] at hne
  omega

/-! ## C7: empty external shape -/

/-- Modelled from the spec: `prod` (imported by `_run.py` from
`pipefunc._utils` but absent from the copy under `src/`) — the product of a
shape tuple. -/
def prod (shape : List Nat) : Nat := shape.foldl (· * ·) 1

/-- Modelled from the spec: `_external_shape` from `pipefunc.map._run_info`
(not under `src/`) — the dimensions whose mask entry is `true`
(external/iterated); `false` entries are internal. -/
def external_shape (shape : List Nat) (mask : List Bool) : List Nat :=
  ((shape.zip mask).filter fun dm => dm.2).map Prod.fst

theorem foldl_mul_zero : ∀ (l : List Nat), l.foldl (· * ·) 0 = 0 := by
  intro l
  induction l with
  | nil => rfl
  | cons x xs ih => simpa using ih

theorem foldl_mul_acc_zero : ∀ (l : List Nat) (a : Nat), 0 ∈ l → l.foldl (· * ·) a = 0 := by
  intro l
  induction l with
  | nil => intro a h; cases h
  | cons x xs ih =>
    intro a h
    rcases List.mem_cons.mp h with h0 | h0
    · simp only [List.foldl_cons, ← h0, Nat.mul_zero]
      exact foldl_mul_zero xs
    · exact ih (a * x) h0

theorem prod_eq_zero_of_mem {shape : List Nat} (h : 0 ∈ shape) : prod shape = 0 :=
  foldl_mul_acc_zero shape 1 h

theorem zip_map_const_arr (l : List String) :
    (l.zip (l.map fun _ => ([] : List PyVal))).map
        (fun oa => (oa.1, ResultOut.arr oa.2)) =
      l.map fun o => (o, ResultOut.arr ([] : List PyVal)) := by
  induction l with
  | nil => rfl
  | cons x xs ih => simp only [List.map_cons, List.zip_cons_cons, ih]

theorem run_mapped_zero_cells (f : PipeFuncModel) (st : RunState)
    (hnames : f.outNames ≠ []) (hnc : f.nCells = 0) :
    run_mapped f st = (f.outNames.map fun o => (o, ResultOut.arr []), st, 0) := by
  have hmask : (f.outNames.map fun o => mask_linear st o 0) =
      f.outNames.map fun _ => [] := by
    simp [mask_linear]
  have hem : existing_and_missing_indices
      (f.outNames.map fun o => mask_linear st o 0) = ([], []) := by
    rw [hmask]
    rw [existing_and_missing_indices_eq _ 0
      (by simpa using hnames)
      (by
        intro m hm
        rcases List.mem_map.mp hm with ⟨o, -, rfl⟩
        rfl)]
    rfl
  simp only [run_mapped, hnc, hem, process_missing, init_result_arrays,
    List.replicate, List.zip_nil_left, List.zip_nil_right, List.foldl_nil]
  exact congrArg (fun r => (r, st, 0)) (zip_map_const_arr f.outNames)

/-- C7: a mapped function whose external shape contains a zero axis (so the
product of the external shape is 0) performs no user function call — both
index lists are empty — produces an empty result array per output name, the
full declared shape also has product 0, and the storage state passed to
downstream consumers is unchanged. -/
theorem empty_external_shape_never_calls (f : PipeFuncModel) (st : RunState)
    (shape : List Nat) (mask : List Bool)
    (hmap : f.mapped = true) (hnames : f.outNames ≠ [])
    (hzero : 0 ∈ external_shape shape mask)
    (hn : f.nCells = prod (external_shape shape mask)) :
    run_func f st = (f.outNames.map fun o => (o, ResultOut.arr []), st, 0) ∧
    prod shape = 0 := by
  have hnc : f.nCells = 0 := hn.trans (prod_eq_zero_of_mem hzero)
  constructor
  · rw [run_func, if_pos hmap]
    exact run_mapped_zero_cells f st hnames hnc
  · apply prod_eq_zero_of_mem
    unfold external_shape at hzero
    rcases List.mem_map.mp hzero with ⟨dm, hdm, hfst⟩
    have hz := (List.mem_filter.mp hdm).1
    have hmem := List.of_mem_zip hz
    exact hfst ▸ hmem.1

/-- Witness for C7 at a concrete mapped function with external shape `[0, 2]`. -/
theorem empty_external_shape_never_calls_witness :
    run_func
        { name := "h", outNames := ["y"], isTuple := false, picker := none,
          mapped := true, nCells := 0, call := fun _ => PyVal.atom 0 }
        empty_state =
      ([("y", ResultOut.arr [])], empty_state, 0) ∧
    prod [0, 2] = 0 :=
  empty_external_shape_never_calls
    { name := "h", outNames := ["y"], isTuple := false, picker := none,
      mapped := true, nCells := 0, call := fun _ => PyVal.atom 0 }
    empty_state [0, 2] [true, true] rfl (by simp) (by decide) (by decide)

/-! ## C3 and C9: the `_check_parallel` preflight
(`src/pipefunc/map/_run.py` lines 543-553)

`_check_parallel` returns immediately when `parallel` is false; otherwise it
inspects `next(iter(store.values()))` — only the FIRST storage of the
mapping (the source comments "Assumes all storage classes are the same!").
On an empty mapping, `next` raises `StopIteration`. -/

structure StorageInfo where
  storage_id : String
  parallelizable : Bool
deriving DecidableEq

inductive RunError where
  | stopIteration : RunError
  | parallelismUnsupported : String → RunError
deriving DecidableEq

/-- Embedding of `_check_parallel`: `store` is the ordered
`{output_name → Storage}` mapping. -/
def check_parallel (parallel : Bool) (store : List (String × StorageInfo)) :
    Except RunError Unit :=
  match parallel with
  | false => .ok ()
  | true =>
      match store with
      | [] => .error .stopIteration
      | (_, s) :: _ =>
          match s.parallelizable with
          | false => .error (.parallelismUnsupported s.storage_id)
          | true => .ok ()

/-- Preflight position in `run` (lines 452-457): `_check_parallel` runs
right after `init_store()` and before the generation loop, so an error
prevents any generation from executing. -/
def run_preflight {α : Type} (parallel : Bool)
    (store : List (String × StorageInfo)) (generations : Unit → α) :
    Except RunError α :=
  match check_parallel parallel store with
  | .error e => .error e
  | .ok () => .ok (generations ())

/-- Store with a parallelizable first storage and a non-parallelizable
second storage. -/
def mixed_store : List (String × StorageInfo) :=
  [("x", ⟨"file_array", true⟩), ("y", ⟨"shared_memory_dict", false⟩)]

/-- Counterexample to C3: with `parallel=true` and a store whose FIRST
storage is parallelizable but whose second is not, `_check_parallel`
succeeds — it does not enforce the condition for every storage. -/
theorem check_parallel_ignores_later_storages :
    check_parallel true mixed_store = .ok () ∧
    (∃ e ∈ mixed_store, e.2.parallelizable = false) := by
  constructor
  · rfl
  · exact ⟨("y", ⟨"shared_memory_dict", false⟩), by decide, rfl⟩

/-- C3 (amended): the preflight inspects only the first storage of the
mapping — with `parallel=true` it succeeds iff the first storage is
parallelizable, regardless of the remaining storages; with `parallel=false`
it always succeeds. -/
theorem check_parallel_first_storage_only (n : String) (s : StorageInfo)
    (rest : List (String × StorageInfo)) :
    (check_parallel true ((n, s) :: rest) = .ok () ↔ s.parallelizable = true) ∧
    (check_parallel true ((n, s) :: rest) =
        .error (.parallelismUnsupported s.storage_id) ↔ s.parallelizable = false) ∧
    (∀ store : List (String × StorageInfo), check_parallel false store = .ok ()) := by
  refine ⟨?_, ?_, fun _ => rfl⟩
  · cases h : s.parallelizable <;> simp [check_parallel, h]
  · cases h : s.parallelizable <;> simp [check_parallel, h]

/-- C9: with `parallel=true` and an empty store mapping (no mapspec-produced
output), the preflight raises `StopIteration` from
`next(iter(store.values()))` — not the documented `ParallelismUnsupported`
— before any generation executes (the result is the error for every
possible generation computation, which is never forced). -/
theorem empty_store_preflight_stopiteration :
    (∀ {α : Type} (generations : Unit → α),
        run_preflight true [] generations = .error .stopIteration) ∧
    (∀ msg, (RunError.stopIteration : RunError) ≠ .parallelismUnsupported msg) := by
  constructor
  · intro α g
    rfl
  · intro msg h
    cases h

/-! ## C4: error augmentation (`src/pipefunc/_utils.py` lines 66-78,
`src/pipefunc/map/_run.py` lines 170-182)

`format_kwargs` renders `k={v!r}` pairs joined by a comma; `handle_error`
builds the context message from the function name and those kwargs and
re-raises the original exception with the message attached
(`e.add_note(msg)` / same-type re-wrap on old interpreters).  Values are
modelled by their `repr` strings.  `_run_iteration` catches the user
exception and calls `handle_error(e, func, selected)` — the cell `index`
is in scope there but is not passed. -/

def format_kwargs (kwargs : List (String × String)) : String :=
  String.intercalate ", " (kwargs.map fun kv => kv.1 ++ "=" ++ kv.2)

def handle_error_msg (funcName : String) (kwargs : List (String × String)) : String :=
  "Error occurred while executing function `" ++ funcName ++ "(" ++
    format_kwargs kwargs ++ ")`."

/-- Embedding of `handle_error`: the first component is the original
exception (preserved), the second the context note attached to it. -/
def handle_error (e : String) (funcName : String)
    (kwargs : List (String × String)) : String × String :=
  (e, handle_error_msg funcName kwargs)

/-- Except-branch of `_run_iteration`: `handle_error(e, func, selected)`;
the linear `index` of the failing cell is in scope but not forwarded. -/
def run_iteration_handle (e : String) (funcName : String)
    (selected : List (String × String)) (_index : Nat) : String × String :=
  handle_error e funcName selected

/-- Substring containment on the character lists of two strings. -/
def str_contains (s sub : String) : Prop := sub.toList <:+: s.toList

instance (s sub : String) : Decidable (str_contains s sub) :=
  inferInstanceAs (Decidable (sub.toList <:+: s.toList))

/-- Counterexample to C4: at function `f`, selected kwargs `x=5` and cell
index 3, the augmented context string is exactly
"Error occurred while executing function `f(x=5)`." and does not contain
the cell index. -/
theorem error_note_omits_index :
    run_iteration_handle "ZeroDivisionError" "f" [("x", "5")] 3 =
      ("ZeroDivisionError", "Error occurred while executing function `f(x=5)`.") ∧
    ¬ str_contains (run_iteration_handle "ZeroDivisionError" "f" [("x", "5")] 3).2 "3" := by
  constructor
  · rfl
  · decide

/-- C4 (amended): the original exception is preserved and augmented with a
context string containing the function name and the selected kwargs — but
not the cell index: the note is identical for every index. -/
theorem handle_error_note_contents (e funcName : String)
    (kwargs : List (String × String)) (i j : Nat) :
    (run_iteration_handle e funcName kwargs i).1 = e ∧
    str_contains (run_iteration_handle e funcName kwargs i).2 funcName ∧
    str_contains (run_iteration_handle e funcName kwargs i).2 (format_kwargs kwargs) ∧
    run_iteration_handle e funcName kwargs i = run_iteration_handle e funcName kwargs j := by
  refine ⟨rfl, ?_, ?_, rfl⟩
  · refine ⟨"Error occurred while executing function `".toList,
      ("(" ++ format_kwargs kwargs ++ ")`.").toList, ?_⟩
    show _ ++ _ ++ _ = (handle_error_msg funcName kwargs).toList
    simp only [handle_error_msg, String.toList, String.data_append, List.append_assoc]
  · refine ⟨("Error occurred while executing function `" ++ funcName ++ "(").toList,
      ")`.".toList, ?_⟩
    show _ ++ _ ++ _ = (handle_error_msg funcName kwargs).toList
    simp only [handle_error_msg, String.toList, String.data_append, List.append_assoc]

/-! ## C5: Result.kwargs assembly (`src/pipefunc/map/_run.py` lines 466-540)

`_run_and_process_generation` assembles `kwargs = _func_kwargs(func, ...)`
per function in a first loop, then in a second loop calls
`_process_task(func, tasks[func], run_folder, store, kwargs, executor)` —
with the loop variable `kwargs` left over from the LAST function of the
first loop.  Kwargs entries are modelled as tokens recording which branch
of `_load_parameter` produced them. -/

inductive ParamVal where
  | input : String → ParamVal
  | blob : String → ParamVal
  | storeRef : String → ParamVal
deriving DecidableEq

structure GenFunc where
  name : String
  parameters : List String
  outNames : List String

structure GenEnv where
  inputPaths : List String
  shapes : List (String × List Nat)
  shapeMasks : List (String × List Bool)

/-- Embedding of `_load_parameter`: root input blob, single-output blob
(absent from `shapes` or mask with no external axis), or storage
reference. -/
def load_parameter (env : GenEnv) (p : String) : ParamVal :=
  if p ∈ env.inputPaths then ParamVal.input p
  else
    match env.shapes.find? fun kv => kv.1 == p with
    | none => ParamVal.blob p
    | some _ =>
        let mask := ((env.shapeMasks.find? fun kv => kv.1 == p).map Prod.snd).getD []
        if mask.any id then ParamVal.storeRef p else ParamVal.blob p

/-- Embedding of `_func_kwargs`: one entry per parameter of the function. -/
def func_kwargs (env : GenEnv) (f : GenFunc) : List (String × ParamVal) :=
  f.parameters.map fun p => (p, load_parameter env p)

/-- Embedding of `_run_and_process_generation`: the first (submission) loop
reassigns the local variable `kwargs` for every function; the second loop
passes that variable — holding the last function's bundle — to
`_process_task` for every function, which stamps it on one `Result` per
output name. -/
def run_and_process_generation_model (env : GenEnv) (gen : List GenFunc) :
    List (String × String × List (String × ParamVal)) :=
  let kwargsVar := gen.foldl (fun _ f => some (func_kwargs env f)) none
  gen.flatMap fun f => f.outNames.map fun o => (o, f.name, kwargsVar.getD [])

def two_func_env : GenEnv := ⟨["x", "y"], [], []⟩

def func_fx : GenFunc := ⟨"f", ["x"], ["fo"]⟩

def func_gy : GenFunc := ⟨"g", ["y"], ["go"]⟩

/-- C5 evaluated at a generation with two functions `f(x)` and `g(y)`: the
Result produced for `f`'s output carries `g`'s kwargs bundle
`[(y, input y)]`, not `f`'s own bundle `[(x, input x)]`. -/
theorem generation_results_share_last_kwargs :
    run_and_process_generation_model two_func_env [func_fx, func_gy] =
      [("fo", "f", [("y", ParamVal.input "y")]),
       ("go", "g", [("y", ParamVal.input "y")])] ∧
    func_kwargs two_func_env func_fx = [("x", ParamVal.input "x")] ∧
    [("y", ParamVal.input "y")] ≠ [("x", ParamVal.input "x")] := by
  refine ⟨rfl, rfl, by decide⟩

/-! ## C2: per-component blobs for tuple outputs

The canonical `_dump_output` (`src/pipefunc/map/_run.py` lines 91-106,
embedded above as `dump_output`) dumps the PICKED value per component name.
The legacy copy (`src/pipefunc/_map.py` lines 69-88) computes
`_output = func.output_picker(output, output_name)` and appends it to the
returned list, but then executes `_dump(output, path)` — writing the
UNPICKED aggregate to every per-name blob. -/

/-- Embedding of the legacy `_dump_output` from `src/pipefunc/_map.py`. -/
def dump_output_legacy (f : PipeFuncModel) (output : PyVal) (st : RunState) :
    List PyVal × RunState :=
  if f.isTuple then
    let new_output := f.outNames.map fun o => apply_picker f output o
    (new_output, f.outNames.foldl (fun s o => set_blob s o output) st)
  else
    ([output], set_blob st (f.outNames.headD "") output)

/-- C2 evaluated at the failing input: for the tuple-output function
`g_pair` with a dict picker and raw aggregate `{a: 1, b: 2}`, the canonical
dump writes `output_picker(raw, name)` per blob, but the legacy dump writes
the unpicked aggregate into both component blobs (while still returning the
picked list), contradicting the claim that no blob ever contains the
unpicked aggregate. -/
theorem legacy_dump_writes_unpicked_aggregate :
    ((dump_output g_pair (PyVal.pdict [("a", PyVal.atom 1), ("b", PyVal.atom 2)])
        empty_state).2.blobs "a" = some (PyVal.atom 1)) ∧
    ((dump_output g_pair (PyVal.pdict [("a", PyVal.atom 1), ("b", PyVal.atom 2)])
        empty_state).2.blobs "b" = some (PyVal.atom 2)) ∧
    ((dump_output_legacy g_pair (PyVal.pdict [("a", PyVal.atom 1), ("b", PyVal.atom 2)])
        empty_state).2.blobs "a" =
      some (PyVal.pdict [("a", PyVal.atom 1), ("b", PyVal.atom 2)])) ∧
    ((dump_output_legacy g_pair (PyVal.pdict [("a", PyVal.atom 1), ("b", PyVal.atom 2)])
        empty_state).1 = [PyVal.atom 1, PyVal.atom 2]) ∧
    some (PyVal.pdict [("a", PyVal.atom 1), ("b", PyVal.atom 2)]) ≠ some (PyVal.atom 1) :=
  ⟨rfl, rfl, rfl, rfl, fun h => PyVal.noConfusion (Option.some.inj h)⟩

/-! ## C8: memoised blob loads

`src/pipefunc/_utils.py` lines 33-63: `load(path, cache=True)` computes a
cache key `(str(path.resolve()), stat.st_mtime, stat.st_size)` and goes
through `_cached_load`, an `functools.lru_cache(maxsize=128)`.
`src/pipefunc/_map.py` line 35: the legacy input loader instead memoises
`_load` with `functools.lru_cache(maxsize=None)` keyed by the (unresolved)
path only — `_load_input` (line 60-62) uses it for every input blob.
The filesystem is a map from path to `(mtime, size, content)`; the third
result component counts filesystem content reads. -/

structure FileInfo where
  mtime : Nat
  size : Nat
  content : PyVal

def cache_key (resolvedPath : String) (fi : FileInfo) : String × Nat × Nat :=
  (resolvedPath, fi.mtime, fi.size)

def lru_lookup (c : List ((String × Nat × Nat) × PyVal)) (k : String × Nat × Nat) :
    Option PyVal :=
  (c.find? fun e => e.1 == k).map Prod.snd

/-- Embedding of `load(path, cache=True)` via `_get_cache_key` and the
128-bounded `_cached_load` LRU: stat the resolved path, look the key up
(a hit moves the entry to the front and reads nothing), otherwise read the
file and insert, keeping at most 128 entries.  `none` models a raised
`OSError` when the file does not exist. -/
def cached_load (resolve : String → String) (fs : String → Option FileInfo)
    (path : String) (c : List ((String × Nat × Nat) × PyVal)) :
    Option (PyVal × List ((String × Nat × Nat) × PyVal) × Nat) :=
  match fs (resolve path) with
  | none => none
  | some fi =>
      let key := cache_key (resolve path) fi
      match c.find? fun e => e.1 == key with
      | some e => some (e.2, (key, e.2) :: c.filter (fun e2 => !(e2.1 == key)), 0)
      | none => some (fi.content, ((key, fi.content) :: c).take 128, 1)

/-- Embedding of the legacy `_load_cached = lru_cache(maxsize=None)(_load)`
from `src/pipefunc/_map.py`: keyed by the path alone, no stat on a cache
hit, and no bound on the cache size. -/
def load_cached_legacy (fs : String → Option FileInfo) (path : String)
    (c : List (String × PyVal)) : Option (PyVal × List (String × PyVal) × Nat) :=
  match c.find? fun e => e.1 == path with
  | some e => some (e.2, (path, e.2) :: c.filter (fun e2 => !(e2.1 == path)), 0)
  | none =>
      match fs path with
      | none => none
      | some fi => some (fi.content, (path, fi.content) :: c, 1)

def fs_before : String → Option FileInfo :=
  fun p => if p = "p" then some ⟨1, 1, PyVal.atom 1⟩ else none

def fs_touched : String → Option FileInfo :=
  fun p => if p = "p" then some ⟨2, 1, PyVal.atom 2⟩ else none

/-- Counterexample to C8: input blobs loaded through the legacy `_map`
loader are memoised by path alone — after the file at `p` is modified
(mtime 1→2, content `atom 1`→`atom 2`) the cached load still returns the
stale `atom 1` without any fresh read, and the cache is not keyed by
`(resolved path, mtime, size)`. -/
theorem legacy_input_cache_ignores_modification :
    load_cached_legacy fs_before "p" [] =
      some (PyVal.atom 1, [("p", PyVal.atom 1)], 1) ∧
    load_cached_legacy fs_touched "p" [("p", PyVal.atom 1)] =
      some (PyVal.atom 1, [("p", PyVal.atom 1)], 0) ∧
    (fs_touched "p").map FileInfo.content = some (PyVal.atom 2) ∧
    PyVal.atom 1 ≠ PyVal.atom 2 :=
  ⟨rfl, rfl, rfl, fun h => by simpa using PyVal.atom.inj h⟩

theorem find?_filter_lt_length {α : Type} [BEq α] {β : Type}
    (c : List (α × β)) (k : α) (e : α × β)
    (hfind : (c.find? fun x => x.1 == k) = some e) :
    (c.filter fun e2 => !(e2.1 == k)).length < c.length := by
  induction c with
  | nil => cases hfind
  | cons x xs ih =>
    by_cases hx : (x.1 == k) = true
    · simp only [List.filter_cons, hx, Bool.not_true, List.length_cons]
      exact Nat.lt_succ_of_le (List.length_filter_le _ _)
    · rw [List.find?_cons_of_neg _ (by simpa using hx)] at hfind
      simp only [List.filter_cons, hx, Bool.not_false, List.length_cons]
      exact Nat.succ_lt_succ (ih hfind)

/-- C8 (amended): the utils-level cached load is keyed by
`(resolved path, mtime, size)`: an untouched file is served from the cache
with no filesystem read, a changed mtime or size yields a different key and
an unseen key forces a fresh read of the current content, and the cache
never exceeds 128 entries.  (The legacy `_map` input loader does not have
these properties — see the counterexample.) -/
theorem utils_cache_behaviour (resolve : String → String)
    (fs fs' : String → Option FileInfo) (p : String)
    (c : List ((String × Nat × Nat) × PyVal)) (fi fi' : FileInfo)
    (hfs : fs (resolve p) = some fi) :
    (∀ v c' r, cached_load resolve fs p c = some (v, c', r) →
      ∃ c'', cached_load resolve fs p c' = some (v, c'', 0)) ∧
    ((fi.mtime ≠ fi'.mtime ∨ fi.size ≠ fi'.size) →
      cache_key (resolve p) fi ≠ cache_key (resolve p) fi') ∧
    (fs' (resolve p) = some fi' →
      lru_lookup c (cache_key (resolve p) fi') = none →
      (cached_load resolve fs' p c).map (fun x => (x.1, x.2.2)) =
        some (fi'.content, 1)) ∧
    (c.length ≤ 128 → ∀ v c' r, cached_load resolve fs p c = some (v, c', r) →
      c'.length ≤ 128) := by
  refine ⟨?_, ?_, ?_, ?_⟩
  · intro v c' r h
    simp only [cached_load, hfs] at h
    rcases hf : c.find? fun e => e.1 == cache_key (resolve p) fi with _ | e
    · simp only [hf, Option.some.injEq, Prod.mk.injEq] at h
      obtain ⟨hv, hc', -⟩ := h
      have hmem : c'.find? (fun e => e.1 == cache_key (resolve p) fi) =
          some (cache_key (resolve p) fi, fi.content) := by
        rw [← hc']
        show (((cache_key (resolve p) fi, fi.content) :: c).take 128).find? _ = _
        rw [List.take_succ_cons, List.find?_cons_of_pos _ (by simp)]
      exact ⟨(cache_key (resolve p) fi, fi.content) ::
          c'.filter (fun e2 => !(e2.1 == cache_key (resolve p) fi)), by
        simp only [cached_load, hfs, hmem, hv]⟩
    · simp only [hf, Option.some.injEq, Prod.mk.injEq] at h
      obtain ⟨hv, hc', -⟩ := h
      have hmem : c'.find? (fun x => x.1 == cache_key (resolve p) fi) =
          some (cache_key (resolve p) fi, e.2) := by
        rw [← hc', List.find?_cons_of_pos _ (by simp)]
      exact ⟨(cache_key (resolve p) fi, e.2) ::
          c'.filter (fun e2 => !(e2.1 == cache_key (resolve p) fi)), by
        simp only [cached_load, hfs, hmem, hv]⟩
  · intro hne heq
    unfold cache_key at heq
    simp only [Prod.mk.injEq] at heq
    rcases hne with hm | hs
    · exact hm heq.2.1
    · exact hs heq.2.2
  · intro hfs' hmiss
    simp only [cached_load, hfs']
    unfold lru_lookup at hmiss
    rw [Option.map_eq_none'] at hmiss
    rw [hmiss]
    rfl
  · intro hc v c' r h
    simp only [cached_load, hfs] at h
    rcases hf : c.find? fun e => e.1 == cache_key (resolve p) fi with _ | e
    · simp only [hf, Option.some.injEq, Prod.mk.injEq] at h
      obtain ⟨-, hc', -⟩ := h
      rw [← hc', List.length_take]
      exact Nat.min_le_left _ _
    · simp only [hf, Option.some.injEq, Prod.mk.injEq] at h
      obtain ⟨-, hc', -⟩ := h
      rw [← hc']
      simp only [List.length_cons]
      exact Nat.succ_le_of_lt (Nat.lt_of_lt_of_le
        (find?_filter_lt_length c (cache_key (resolve p) fi) e hf) hc)

/-- Witness for C8's amended theorem at `resolve = id`, a one-file
filesystem, and the empty cache. -/
theorem utils_cache_behaviour_witness :
    (∀ v c' r, cached_load id fs_before "p" [] = some (v, c', r) →
      ∃ c'', cached_load id fs_before "p" c' = some (v, c'', 0)) ∧
    ((FileInfo.mk 1 1 (PyVal.atom 1)).mtime ≠ (FileInfo.mk 2 1 (PyVal.atom 2)).mtime ∨
        (FileInfo.mk 1 1 (PyVal.atom 1)).size ≠ (FileInfo.mk 2 1 (PyVal.atom 2)).size →
      cache_key (id "p") (FileInfo.mk 1 1 (PyVal.atom 1)) ≠
        cache_key (id "p") (FileInfo.mk 2 1 (PyVal.atom 2))) ∧
    (fs_touched (id "p") = some (FileInfo.mk 2 1 (PyVal.atom 2)) →
      lru_lookup [] (cache_key (id "p") (FileInfo.mk 2 1 (PyVal.atom 2))) = none →
      (cached_load id fs_touched "p" []).map (fun x => (x.1, x.2.2)) =
        some ((FileInfo.mk 2 1 (PyVal.atom 2)).content, 1)) ∧
    (([] : List ((String × Nat × Nat) × PyVal)).length ≤ 128 →
      ∀ v c' r, cached_load id fs_before "p" [] = some (v, c', r) →
        c'.length ≤ 128) :=
  utils_cache_behaviour id fs_before fs_touched "p" []
    (FileInfo.mk 1 1 (PyVal.atom 1)) (FileInfo.mk 2 1 (PyVal.atom 2)) rfl

/-! ## C10: `_LazyFunction.evaluate` (`src/pipefunc/_lazy.py` lines 78-91)

Nodes are identified by their construction-counter id; the arguments of a
node are therefore created before it (`argIds` smaller than the node id).
`evaluate` returns the stored `_result` when `_evaluated` is set; otherwise
it evaluates the argument subgraph, invokes the wrapped callable (counted
in `calls`), stores the result, marks the node evaluated, and then, for
every delayed callback `cb`, assigns `cb._result = result` WITHOUT marking
`cb` evaluated and calls `cb.evaluate()`.  Non-lazy arguments are folded
into `fn`.  Recursion is fuelled; `none` models non-termination. -/

structure LazyNode (V : Type) where
  fn : List V → V
  argIds : List Nat
  callbacks : List Nat

structure LazyState (V : Type) where
  result : Nat → V
  evaluated : Nat → Bool
  calls : Nat → Nat

def upd {α : Type} (f : Nat → α) (i : Nat) (v : α) : Nat → α :=
  fun j => if j = i then v else f j

inductive EvalReq (V : Type) where
  | node : Nat → EvalReq V
  | args : List Nat → EvalReq V
  | cbs : List Nat → V → EvalReq V

inductive EvalRes (V : Type) where
  | val : V → EvalRes V
  | vals : List V → EvalRes V
  | done : EvalRes V

/-- Fuelled evaluator for the lazy graph: `node i` is `evaluate()` on node
`i`, `args l` is `evaluate_lazy` over the lazy arguments, and `cbs l v` is
the delayed-callback loop with the just-computed result `v`. -/
def eval_lazy {V : Type} (g : Nat → LazyNode V) :
    Nat → EvalReq V → LazyState V → Option (EvalRes V × LazyState V)
  | 0, _, _ => none
  | fuel + 1, EvalReq.node i, st =>
      if st.evaluated i then some (EvalRes.val (st.result i), st)
      else
        match eval_lazy g fuel (EvalReq.args (g i).argIds) st with
        | some (EvalRes.vals argVals, st1) =>
            let v := (g i).fn argVals
            let st2 : LazyState V :=
              { result := upd st1.result i v,
                evaluated := upd st1.evaluated i true,
                calls := upd st1.calls i (st1.calls i + 1) }
            match eval_lazy g fuel (EvalReq.cbs (g i).callbacks v) st2 with
            | some (_, st3) => some (EvalRes.val v, st3)
            | _ => none
        | _ => none
  | fuel + 1, EvalReq.args l, st =>
      match l with
      | [] => some (EvalRes.vals [], st)
      | a :: rest =>
          match eval_lazy g fuel (EvalReq.node a) st with
          | some (EvalRes.val v, st1) =>
              match eval_lazy g fuel (EvalReq.args rest) st1 with
              | some (EvalRes.vals vs, st2) => some (EvalRes.vals (v :: vs), st2)
              | _ => none
          | _ => none
  | fuel + 1, EvalReq.cbs l v, st =>
      match l with
      | [] => some (EvalRes.done, st)
      | c :: rest =>
          let st1 : LazyState V := { st with result := upd st.result c v }
          match eval_lazy g fuel (EvalReq.node c) st1 with
          | some (_, st2) => eval_lazy g fuel (EvalReq.cbs rest v) st2
          | none => none

def init_lazy_state (V : Type) [Inhabited V] : LazyState V :=
  ⟨fun _ => default, fun _ => false, fun _ => 0⟩

/-- A sequence of external `evaluate()` requests `(fuel, node id)` applied
one after the other; a fuel exhaustion leaves the state unchanged. -/
def eval_seq {V : Type} (g : Nat → LazyNode V) (seq : List (Nat × Nat))
    (st : LazyState V) : LazyState V :=
  seq.foldl (fun s fi =>
    match eval_lazy g fi.1 (EvalReq.node fi.2) s with
    | some (_, s') => s'
    | none => s) st

/-- Graph with a delayed callback re-entering a node mid-evaluation:
node 0 is `a = Lazy(const 5)` with `a.add_delayed_callback(b)`, node 1 is
`b = Lazy(fun x => x + 1, args=(a,))`. -/
def cb_graph : Nat → LazyNode Nat := fun i =>
  if i = 0 then { fn := fun _ => 5, argIds := [], callbacks := [1] }
  else { fn := fun vs => vs.headD 0 + 1, argIds := [0], callbacks := [] }

/-- Counterexample to C10: a single `b.evaluate()` on `cb_graph` invokes
`b`'s wrapped callable twice — once through `a`'s delayed callback while
`b`'s original `evaluate()` is still between its `_evaluated` check and its
own call, and once in that original frame. -/
theorem delayed_callback_double_invocation :
    (eval_lazy cb_graph 20 (EvalReq.node 1) (init_lazy_state Nat)).elim 0
        (fun r => r.2.calls 1) = 2 ∧ ¬ (2 ≤ 1) :=
  ⟨rfl, by decide⟩

/-- Bound used by the frame lemma: every node id an evaluation request can
touch is below `i`. -/
def ReqBelow {V : Type} : EvalReq V → Nat → Prop
  | EvalReq.node j, i => j < i
  | EvalReq.args l, i => ∀ a ∈ l, a < i
  | EvalReq.cbs l _, i => ∀ c ∈ l, c < i

theorem eval_lazy_frame {V : Type} (g : Nat → LazyNode V)
    (hwf : ∀ j, ∀ a ∈ (g j).argIds, a < j)
    (hcb : ∀ j, (g j).callbacks = []) :
    ∀ (fuel : Nat) (req : EvalReq V) (st : LazyState V) (res : EvalRes V)
      (st' : LazyState V), eval_lazy g fuel req st = some (res, st') →
      ∀ i, ReqBelow req i →
        st'.evaluated i = st.evaluated i ∧ st'.calls i = st.calls i := by
  intro fuel
  induction fuel with
  | zero => intro req st res st' h; cases h
  | succ fuel ih =>
    intro req st res st' h i hbel
    cases req with
    | node j =>
      simp only [eval_lazy] at h
      split at h
      · rw [Option.some.injEq, Prod.mk.injEq] at h
        obtain ⟨-, h2⟩ := h
        subst h2
        exact ⟨rfl, rfl⟩
      · split at h
        · rename_i argVals st1 ha
          split at h
          · rename_i cres st3 hc
            rw [Option.some.injEq, Prod.mk.injEq] at h
            obtain ⟨-, h2⟩ := h
            subst h2
            have hargs := ih (EvalReq.args (g j).argIds) st (EvalRes.vals argVals)
              st1 ha i (fun a hmem => Nat.lt_trans (hwf j a hmem) hbel)
            have hij : i ≠ j := Nat.ne_of_gt hbel
            have hcbs := ih _ _ _ _ hc i (by
              rw [hcb j]
              intro c hmem
              cases hmem)
            refine ⟨?_, ?_⟩
            · rw [hcbs.1]
              show upd st1.evaluated j true i = st.evaluated i
              simp only [upd]
              rw [if_neg hij]
              exact hargs.1
            · rw [hcbs.2]
              show upd st1.calls j (st1.calls j + 1) i = st.calls i
              simp only [upd]
              rw [if_neg hij]
              exact hargs.2
          · cases h
        · cases h
    | args l =>
      cases l with
      | nil =>
        simp only [eval_lazy] at h
        rw [Option.some.injEq, Prod.mk.injEq] at h
        obtain ⟨-, h2⟩ := h
        subst h2
        exact ⟨rfl, rfl⟩
      | cons a rest =>
        simp only [eval_lazy] at h
        split at h
        · rename_i v st1 hn
          split at h
          · rename_i vs st2 hr
            rw [Option.some.injEq, Prod.mk.injEq] at h
            obtain ⟨-, h2⟩ := h
            subst h2
            have h1 := ih (EvalReq.node a) st (EvalRes.val v) st1 hn i
              (hbel a (List.mem_cons_self _ _))
            have h2 := ih (EvalReq.args rest) st1 (EvalRes.vals vs) st2 hr i
              (fun x hx => hbel x (List.mem_cons_of_mem _ hx))
            exact ⟨h2.1.trans h1.1, h2.2.trans h1.2⟩
          · cases h
        · cases h
    | cbs l v =>
      cases l with
      | nil =>
        simp only [eval_lazy] at h
        rw [Option.some.injEq, Prod.mk.injEq] at h
        obtain ⟨-, h2⟩ := h
        subst h2
        exact ⟨rfl, rfl⟩
      | cons c rest =>
        simp only [eval_lazy] at h
        split at h
        · rename_i nres st2 hn
          have h1 := ih (EvalReq.node c) _ nres st2 hn i (hbel c (List.mem_cons_self _ _))
          have h2 := ih (EvalReq.cbs rest v) st2 res st' h i
            (fun x hx => hbel x (List.mem_cons_of_mem _ hx))
          exact ⟨h2.1.trans h1.1, h2.2.trans h1.2⟩
        · cases h

/-- Invariant: every node's callable has run at most once, and an
unevaluated node's callable has not run at all. -/
def CallsInv {V : Type} (st : LazyState V) : Prop :=
  ∀ i, st.calls i ≤ 1 ∧ (st.evaluated i = false → st.calls i = 0)

theorem eval_lazy_calls_inv {V : Type} (g : Nat → LazyNode V)
    (hwf : ∀ j, ∀ a ∈ (g j).argIds, a < j)
    (hcb : ∀ j, (g j).callbacks = []) :
    ∀ (fuel : Nat) (req : EvalReq V) (st : LazyState V) (res : EvalRes V)
      (st' : LazyState V), CallsInv st →
      eval_lazy g fuel req st = some (res, st') → CallsInv st' := by
  intro fuel
  induction fuel with
  | zero => intro req st res st' _ h; cases h
  | succ fuel ih =>
    intro req st res st' hinv h
    cases req with
    | node j =>
      simp only [eval_lazy] at h
      split at h
      · rw [Option.some.injEq, Prod.mk.injEq] at h
        obtain ⟨-, h2⟩ := h
        subst h2
        exact hinv
      · rename_i hev
        split at h
        · rename_i argVals st1 ha
          split at h
          · rename_i cres st3 hc
            rw [Option.some.injEq, Prod.mk.injEq] at h
            obtain ⟨-, h2⟩ := h
            subst h2
            have hinv1 : CallsInv st1 := ih _ _ _ _ hinv ha
            have hframe := eval_lazy_frame g hwf hcb fuel
              (EvalReq.args (g j).argIds) st (EvalRes.vals argVals) st1 ha j
              (fun a hmem => hwf j a hmem)
            have hev' : st.evaluated j = false := Bool.eq_false_iff.mpr hev
            have hcalls0 : st1.calls j = 0 := by
              rw [hframe.2]
              exact (hinv j).2 hev'
            have hinv2 : CallsInv
                { result := upd st1.result j ((g j).fn argVals),
                  evaluated := upd st1.evaluated j true,
                  calls := upd st1.calls j (st1.calls j + 1) } := by
              intro k
              by_cases hk : k = j
              · subst hk
                refine ⟨?_, ?_⟩
                · have hone : upd st1.calls k (st1.calls k + 1) k = 1 := by
                    simp [upd, hcalls0]
                  show upd st1.calls k (st1.calls k + 1) k ≤ 1
                  rw [hone]
                · intro hfalse
                  have hfalse' : upd st1.evaluated k true k = false := hfalse
                  simp [upd] at hfalse'
              · refine ⟨?_, ?_⟩
                · show upd st1.calls j (st1.calls j + 1) k ≤ 1
                  simp only [upd, if_neg hk]
                  exact (hinv1 k).1
                · intro hfalse
                  have hfalse' : upd st1.evaluated j true k = false := hfalse
                  show upd st1.calls j (st1.calls j + 1) k = 0
                  simp only [upd, if_neg hk] at hfalse' ⊢
                  exact (hinv1 k).2 hfalse'
            exact ih _ _ _ _ hinv2 hc
          · cases h
        · cases h
    | args l =>
      cases l with
      | nil =>
        simp only [eval_lazy] at h
        rw [Option.some.injEq, Prod.mk.injEq] at h
        obtain ⟨-, h2⟩ := h
        subst h2
        exact hinv
      | cons a rest =>
        simp only [eval_lazy] at h
        split at h
        · rename_i v st1 hn
          split at h
          · rename_i vs st2 hr
            rw [Option.some.injEq, Prod.mk.injEq] at h
            obtain ⟨-, h2⟩ := h
            subst h2
            exact ih _ _ _ _ (ih _ _ _ _ hinv hn) hr
          · cases h
        · cases h
    | cbs l v =>
      cases l with
      | nil =>
        simp only [eval_lazy] at h
        rw [Option.some.injEq, Prod.mk.injEq] at h
        obtain ⟨-, h2⟩ := h
        subst h2
        exact hinv
      | cons c rest =>
        simp only [eval_lazy] at h
        split at h
        · rename_i nres st2 hn
          have hinv1 : CallsInv { st with result := upd st.result c v } := hinv
          exact ih _ _ _ _ (ih _ _ _ _ hinv1 hn) h
        · cases h

theorem eval_seq_calls_inv {V : Type} (g : Nat → LazyNode V)
    (hwf : ∀ j, ∀ a ∈ (g j).argIds, a < j)
    (hcb : ∀ j, (g j).callbacks = []) :
    ∀ (seq : List (Nat × Nat)) (st : LazyState V), CallsInv st →
      CallsInv (eval_seq g seq st) := by
  intro seq
  induction seq with
  | nil => intro st hinv; exact hinv
  | cons x xs ih =>
    intro st hinv
    rcases he : eval_lazy g x.1 (EvalReq.node x.2) st with _ | ⟨r, s'⟩
    · have hstep : eval_seq g (x :: xs) st = eval_seq g xs st := by
        simp only [eval_seq, List.foldl_cons, he]
      rw [hstep]
      exact ih st hinv
    · have hstep : eval_seq g (x :: xs) st = eval_seq g xs s' := by
        simp only [eval_seq, List.foldl_cons, he]
      rw [hstep]
      exact ih s' (eval_lazy_calls_inv g hwf hcb _ _ _ _ _ hinv he)

/-- C10 (amended): for a lazy graph whose nodes' arguments were constructed
before them (argument ids smaller — guaranteed by the construction counter)
and with NO delayed callbacks registered, each node's wrapped callable runs
at most once across any sequence of `evaluate()` calls, and once a node is
marked evaluated every further `evaluate()` returns the stored result with
the state — hence the callable and the argument subgraph — untouched.
(With delayed callbacks this fails: see the counterexample.) -/
theorem lazy_function_called_at_most_once {V : Type} [Inhabited V]
    (g : Nat → LazyNode V)
    (hwf : ∀ j, ∀ a ∈ (g j).argIds, a < j)
    (hcb : ∀ j, (g j).callbacks = []) :
    (∀ (seq : List (Nat × Nat)) (i : Nat),
      (eval_seq g seq (init_lazy_state V)).calls i ≤ 1) ∧
    (∀ (fuel i : Nat) (st : LazyState V), st.evaluated i = true →
      eval_lazy g (fuel + 1) (EvalReq.node i) st =
        some (EvalRes.val (st.result i), st)) := by
  constructor
  · intro seq i
    have hinit : CallsInv (init_lazy_state V) :=
      fun _ => ⟨Nat.zero_le 1, fun _ => rfl⟩
    exact ((eval_seq_calls_inv g hwf hcb seq _ hinit) i).1
  · intro fuel i st hev
    simp only [eval_lazy, hev, if_true]

/-- Callback-free two-node graph: node 0 computes 7, node 1 doubles node
0's value. -/
def no_cb_graph : Nat → LazyNode Nat := fun i =>
  if i = 0 then { fn := fun _ => 7, argIds := [], callbacks := [] }
  else { fn := fun vs => vs.headD 0 * 2, argIds := [0], callbacks := [] }

/-- Witness for C10's amended theorem on the callback-free graph. -/
theorem lazy_function_called_at_most_once_witness :
    (∀ (seq : List (Nat × Nat)) (i : Nat),
      (eval_seq no_cb_graph seq (init_lazy_state Nat)).calls i ≤ 1) ∧
    (∀ (fuel i : Nat) (st : LazyState Nat), st.evaluated i = true →
      eval_lazy no_cb_graph (fuel + 1) (EvalReq.node i) st =
        some (EvalRes.val (st.result i), st)) :=
  lazy_function_called_at_most_once no_cb_graph
    (fun j a ha => by
      unfold no_cb_graph at ha
      by_cases hj : j = 0
      · simp [hj] at ha
      · simp [hj] at ha
        omega)
    (fun j => by
      unfold no_cb_graph
      by_cases hj : j = 0 <;> simp [hj])

end Pipefunc
